import Mathlib

/-!
Verification of the Critical Spares evaluation core (`src/app.py`).

The Python program computes a failure rate `λ = (A·N·M·T)/MTBR` and then
iterates the Poisson probability mass function to find the minimum number of
spares whose cumulative probability reaches a user-chosen threshold, recording
one table row per candidate spares count.

Modelling decisions:
* Python floats and `scipy.stats.poisson.pmf` are modelled with exact real
  arithmetic (`ℝ`); the literal `1e-8` becomes the exact rational `1/10^8`.
* Python's `round(p, 4)` uses round-half-to-even; `pyRound`/`round4` model it
  exactly, ties included.
* The `while x <= max_iterations` loop is modelled by structural recursion on
  the number of remaining iterations (`max_iterations + 1` at the start).
-/

namespace CriticalSpares

/-- Model of Python `round(y)` on reals: round to the nearest integer,
ties to the nearest even integer. -/
noncomputable def pyRound (y : ℝ) : ℤ :=
  if Int.fract y = 1 / 2 then 2 * round (y / 2) else round y

/-- Model of Python `round(p, 4)`: round to 4 decimal digits. -/
noncomputable def round4 (p : ℝ) : ℝ :=
  (pyRound (p * 10 ^ 4) : ℝ) / 10 ^ 4

/-- `poisson_probability` from `app.py` line 34:
`poisson.pmf(x, λ) = e^(-λ) · λ^x / x!`. -/
noncomputable def poisson_probability (x : ℕ) (lambda_value : ℝ) : ℝ :=
  Real.exp (-lambda_value) * lambda_value ^ x / (Nat.factorial x : ℝ)

/-- The running cumulative probability after the row for `n` spares has been
added: `∑_{i=0}^{n} pmf(i, λ)` (the Poisson CDF at `n`). -/
noncomputable def poisson_cdf (lam : ℝ) (n : ℕ) : ℝ :=
  ∑ i ∈ Finset.range (n + 1), poisson_probability i lam

/-- One row of `probability_table` (`app.py` lines 83–87): the spares count,
and the `round(·, 4)` values stored for the probability and the cumulative
probability. -/
structure ProbRow where
  spares : ℕ
  probability : ℝ
  cumulative_probability : ℝ

/-- The state after the sizing loop: `probability_table`, `min_spares = x`,
and the final (full-precision) `cumulative_probability`. -/
structure SizingResult where
  table : List ProbRow
  min_spares : ℕ
  cumulative_probability : ℝ

/-- The loop body of `app.py` lines 80–90, by recursion on the number of
remaining iterations.  `x` is the current spares count and `cum` the
full-precision running cumulative probability.  When the fuel is exhausted the
`while x <= max_iterations` guard fails and the loop exits without a break. -/
noncomputable def sizeLoop (lam θ : ℝ) : ℕ → ℕ → ℝ → List ProbRow × ℕ × ℝ
  | 0, x, cum => ([], x, cum)
  | fuel + 1, x, cum =>
      let p := poisson_probability x lam
      let cum' := cum + p
      let row : ProbRow := ⟨x, round4 p, round4 cum'⟩
      if θ ≤ cum' ∨ p < 1e-8 then ([row], x, cum')
      else
        let r := sizeLoop lam θ fuel (x + 1) cum'
        (row :: r.1, r.2.1, r.2.2)

/-- The spare-sizing computation of `app.py` lines 75–92: run the loop from
`x = 0`, `cumulative_probability = 0` with `max_iterations + 1` admissible
iterations (`while x <= max_iterations`), then `min_spares = x`.
`max_iterations` is `1000` in the script; it is a parameter here, as in the
spec's `size_spares` interface. -/
noncomputable def size_spares (lam θ : ℝ) (max_iterations : ℕ) : SizingResult :=
  let r := sizeLoop lam θ (max_iterations + 1) 0 0
  ⟨r.1, r.2.1, r.2.2⟩

/-- Modelled from the spec: the `converged` flag of the `size_spares`
interface (§6) — the script itself returns no flag; non-convergence means the
threshold was not reached by the final cumulative probability. -/
def SizingResult.converged (r : SizingResult) (θ : ℝ) : Prop :=
  θ ≤ r.cumulative_probability

/-- The λ calculation of `app.py` line 53: `λ = (A * N * M * T) / MTBR`,
on non-negative integer inputs, with Python true division. -/
noncomputable def compute_lambda (A N M T MTBR : ℕ) : ℝ :=
  ((A : ℝ) * N * M * T) / MTBR

/-- Outcome of one evaluation of the app's main branch: either the `st.error`
message (no table is built) or λ together with the sizing result. -/
inductive AppOutcome where
  | error (msg : String) : AppOutcome
  | result (lam : ℝ) (r : SizingResult) : AppOutcome

/-- The `MTBR == 0` guard of `app.py` lines 46–48: on zero the app reports
`st.error("MTBR cannot be zero.")` and never computes; otherwise it computes
λ and runs the sizing loop. -/
noncomputable def run_evaluation (A N M T MTBR : ℕ) (θ : ℝ) (max_iterations : ℕ) :
    AppOutcome :=
  if MTBR = 0 then .error "MTBR cannot be zero."
  else
    let lam := compute_lambda A N M T MTBR
    .result lam (size_spares lam θ max_iterations)

/-- A table row as built at spares count `i`: the stored probability and
cumulative probability are the `round(·, 4)` values of the pmf at `i` and of
the full-precision running cumulative sum. -/
noncomputable def tableRow (lam : ℝ) (i : ℕ) : ProbRow :=
  ⟨i, round4 (poisson_probability i lam), round4 (poisson_cdf lam i)⟩

/-! ### Facts about the rounding model -/

theorem pyRound_le (y : ℝ) : (pyRound y : ℝ) ≤ y + 1 / 2 := by
  unfold pyRound
  split
  · next h =>
    have hy : y = (⌊y⌋ : ℝ) + 1 / 2 := by
      have := Int.floor_add_fract y
      rw [h] at this
      linarith
    have h1 : (round (y / 2) : ℝ) ≤ y / 2 + 1 / 2 := by
      rw [round_eq]
      exact Int.floor_le _
    have h2 : 2 * round (y / 2) < ⌊y⌋ + 2 := by
      have hc : ((2 * round (y / 2) : ℤ) : ℝ) < ((⌊y⌋ + 2 : ℤ) : ℝ) := by
        push_cast
        linarith
      exact_mod_cast hc
    have h3 : 2 * round (y / 2) ≤ ⌊y⌋ + 1 := by omega
    have h4 : ((2 * round (y / 2) : ℤ) : ℝ) ≤ ((⌊y⌋ + 1 : ℤ) : ℝ) := by exact_mod_cast h3
    push_cast at h4 ⊢
    linarith
  · rw [round_eq]
    calc ((⌊y + 1 / 2⌋ : ℤ) : ℝ) ≤ y + 1 / 2 := Int.floor_le _

theorem le_pyRound (y : ℝ) : y - 1 / 2 ≤ (pyRound y : ℝ) := by
  unfold pyRound
  split
  · next h =>
    have hy : y = (⌊y⌋ : ℝ) + 1 / 2 := by
      have := Int.floor_add_fract y
      rw [h] at this
      linarith
    have h1 : y / 2 + 1 / 2 - 1 < (round (y / 2) : ℝ) := by
      rw [round_eq]
      exact Int.sub_one_lt_floor _
    have h2 : ⌊y⌋ - 1 < 2 * round (y / 2) := by
      have hc : ((⌊y⌋ - 1 : ℤ) : ℝ) < ((2 * round (y / 2) : ℤ) : ℝ) := by
        push_cast
        linarith
      exact_mod_cast hc
    have h3 : ⌊y⌋ ≤ 2 * round (y / 2) := by omega
    have h4 : ((⌊y⌋ : ℤ) : ℝ) ≤ ((2 * round (y / 2) : ℤ) : ℝ) := by exact_mod_cast h3
    push_cast at h4 ⊢
    linarith
  · rw [round_eq]
    have : y + 1 / 2 - 1 < (⌊y + 1 / 2⌋ : ℝ) := Int.sub_one_lt_floor _
    linarith

theorem pyRound_mono : Monotone pyRound := by
  intro y z hyz
  by_contra hlt
  push_neg at hlt
  have h1 : ((pyRound z : ℤ) : ℝ) + 1 ≤ ((pyRound y : ℤ) : ℝ) := by
    exact_mod_cast Int.add_one_le_iff.mpr hlt
  have h2 := pyRound_le y
  have h3 := le_pyRound z
  have hzy : z ≤ y := by linarith
  have heq : y = z := le_antisymm hyz hzy
  subst heq
  exact lt_irrefl _ hlt

/-- If `y` lies strictly between `m - 1/2` and `m + 1/2` then `pyRound y = m`. -/
theorem pyRound_eq_of_mem (y : ℝ) (m : ℤ) (hl : (m : ℝ) - 1 / 2 < y)
    (hu : y < (m : ℝ) + 1 / 2) : pyRound y = m := by
  unfold pyRound
  split
  · next h =>
    exfalso
    have hy : y = (⌊y⌋ : ℝ) + 1 / 2 := by
      have := Int.floor_add_fract y
      rw [h] at this
      linarith
    have h1 : (m : ℝ) - 1 < (⌊y⌋ : ℝ) := by linarith
    have h2 : (⌊y⌋ : ℝ) < (m : ℝ) := by linarith
    have h1' : m - 1 < ⌊y⌋ := by exact_mod_cast h1
    have h2' : ⌊y⌋ < m := by exact_mod_cast h2
    omega
  · rw [round_eq]
    rw [Int.floor_eq_iff]
    constructor
    · linarith
    · linarith

theorem round4_mono : Monotone round4 := by
  intro y z hyz
  unfold round4
  have h1 : y * 10 ^ 4 ≤ z * 10 ^ 4 := by nlinarith
  have h2 : pyRound (y * 10 ^ 4) ≤ pyRound (z * 10 ^ 4) := pyRound_mono h1
  have h3 : ((pyRound (y * 10 ^ 4) : ℤ) : ℝ) ≤ ((pyRound (z * 10 ^ 4) : ℤ) : ℝ) := by
    exact_mod_cast h2
  apply div_le_div_of_nonneg_right h3 (by norm_num)

/-- `round4 p = m / 10^4` whenever `p · 10^4` lies strictly between `m - 1/2`
and `m + 1/2`. -/
theorem round4_eq_of_mem (p : ℝ) (m : ℤ) (hl : (m : ℝ) - 1 / 2 < p * 10 ^ 4)
    (hu : p * 10 ^ 4 < (m : ℝ) + 1 / 2) : round4 p = (m : ℝ) / 10 ^ 4 := by
  unfold round4
  rw [pyRound_eq_of_mem _ m hl hu]

theorem round4_zero : round4 0 = 0 := by
  have := round4_eq_of_mem 0 0 (by norm_num) (by norm_num)
  simpa using this

theorem round4_one : round4 1 = 1 := by
  have := round4_eq_of_mem 1 10000 (by norm_num) (by norm_num)
  rw [this]
  norm_num

theorem round4_mem_unit {x : ℝ} (h0 : 0 ≤ x) (h1 : x ≤ 1) :
    0 ≤ round4 x ∧ round4 x ≤ 1 := by
  constructor
  · have := round4_mono h0
    rwa [round4_zero] at this
  · have := round4_mono h1
    rwa [round4_one] at this

/-! ### Facts about the Poisson model -/

theorem poisson_probability_zero (lam : ℝ) :
    poisson_probability 0 lam = Real.exp (-lam) := by
  simp [poisson_probability]

theorem poisson_probability_nonneg {lam : ℝ} (hlam : 0 ≤ lam) (x : ℕ) :
    0 ≤ poisson_probability x lam := by
  unfold poisson_probability
  positivity

theorem poisson_cdf_nonneg {lam : ℝ} (hlam : 0 ≤ lam) (n : ℕ) :
    0 ≤ poisson_cdf lam n :=
  Finset.sum_nonneg fun i _ => poisson_probability_nonneg hlam i

theorem poisson_cdf_succ (lam : ℝ) (n : ℕ) :
    poisson_cdf lam (n + 1) = poisson_cdf lam n + poisson_probability (n + 1) lam := by
  unfold poisson_cdf
  rw [Finset.sum_range_succ]

theorem poisson_cdf_mono {lam : ℝ} (hlam : 0 ≤ lam) : Monotone (poisson_cdf lam) := by
  intro m n hmn
  unfold poisson_cdf
  apply Finset.sum_le_sum_of_subset_of_nonneg
  · exact Finset.range_subset.mpr (by omega)
  · intro i _ _
    exact poisson_probability_nonneg hlam i

theorem poisson_cdf_le_one {lam : ℝ} (hlam : 0 ≤ lam) (n : ℕ) :
    poisson_cdf lam n ≤ 1 := by
  have hrw : poisson_cdf lam n =
      Real.exp (-lam) * ∑ i ∈ Finset.range (n + 1), lam ^ i / (Nat.factorial i : ℝ) := by
    unfold poisson_cdf poisson_probability
    rw [Finset.mul_sum]
    refine Finset.sum_congr rfl fun i _ => ?_
    rw [mul_div_assoc]
  rw [hrw]
  have hsum := Real.sum_le_exp_of_nonneg hlam (n + 1)
  calc Real.exp (-lam) * ∑ i ∈ Finset.range (n + 1), lam ^ i / (Nat.factorial i : ℝ)
      ≤ Real.exp (-lam) * Real.exp lam := by
        apply mul_le_mul_of_nonneg_left hsum (Real.exp_pos _).le
    _ = 1 := by rw [← Real.exp_add]; simp

theorem poisson_probability_le_one {lam : ℝ} (hlam : 0 ≤ lam) (x : ℕ) :
    poisson_probability x lam ≤ 1 := by
  have h1 : poisson_probability x lam ≤ poisson_cdf lam x := by
    unfold poisson_cdf
    have := Finset.single_le_sum
      (f := fun i => poisson_probability i lam)
      (fun i _ => poisson_probability_nonneg hlam i)
      (Finset.self_mem_range_succ x)
    simpa using this
  exact h1.trans (poisson_cdf_le_one hlam x)

/-! ### Characterization of the sizing loop -/

theorem sizeLoop_length (lam θ : ℝ) (fuel : ℕ) :
    ∀ (x : ℕ) (cum : ℝ), (sizeLoop lam θ fuel x cum).1.length ≤ fuel := by
  induction fuel with
  | zero => intro x cum; simp [sizeLoop]
  | succ fuel ih =>
    intro x cum
    simp only [sizeLoop]
    split
    · simp
    · have := ih (x + 1) (cum + poisson_probability x lam)
      simp only [List.length_cons]
      omega

/-- If `n` is the first index at or after `x` where the loop's stop test
(`cumulative ≥ θ` or `pmf < 1e-8`) holds, and there is enough fuel to reach
it, then the loop emits exactly the rows for `x, …, n` and stops with
`min_spares = n` and final cumulative probability `CDF(n)`. -/
theorem sizeLoop_find (lam θ : ℝ) (fuel : ℕ) :
    ∀ x n : ℕ, x ≤ n → n < x + fuel →
    (θ ≤ poisson_cdf lam n ∨ poisson_probability n lam < 1e-8) →
    (∀ m, x ≤ m → m < n → ¬(θ ≤ poisson_cdf lam m ∨ poisson_probability m lam < 1e-8)) →
    sizeLoop lam θ fuel x (∑ i ∈ Finset.range x, poisson_probability i lam) =
      ((List.range' x (n + 1 - x)).map (tableRow lam), n, poisson_cdf lam n) := by
  induction fuel with
  | zero =>
    intro x n hxn hfuel _ _
    exfalso
    omega
  | succ fuel ih =>
    intro x n hxn hfuel hstop hmin
    have hcum : (∑ i ∈ Finset.range x, poisson_probability i lam) + poisson_probability x lam
        = poisson_cdf lam x := by
      unfold poisson_cdf
      rw [Finset.sum_range_succ]
    rcases Nat.lt_or_ge x n with hlt | hge
    · have hnot := hmin x le_rfl hlt
      have hrec := ih (x + 1) n (by omega) (by omega) hstop
        (fun m hm1 hm2 => hmin m (by omega) hm2)
      have hsum1 : (∑ i ∈ Finset.range (x + 1), poisson_probability i lam) =
          poisson_cdf lam x := rfl
      rw [hsum1] at hrec
      simp only [sizeLoop]
      rw [hcum, if_neg hnot, hrec]
      have hrange : List.range' x (n + 1 - x) =
          x :: List.range' (x + 1) (n + 1 - (x + 1)) := by
        have hc : n + 1 - x = (n + 1 - (x + 1)) + 1 := by omega
        rw [hc, List.range'_succ]
      rw [hrange]
      simp [tableRow]
    · have hxeq : x = n := le_antisymm hxn hge
      subst hxeq
      simp only [sizeLoop]
      rw [hcum, if_pos hstop]
      have hone : x + 1 - x = 1 := by omega
      rw [hone]
      simp [List.range'_succ, tableRow]

/-- `size_spares` at the first stopping index `n ≤ max_iterations`: the table
is the rows for `0, …, n`, `min_spares = n`, and the final cumulative
probability is `CDF(n)`. -/
theorem size_spares_eq_of_find (lam θ : ℝ) (maxIter n : ℕ) (hn : n ≤ maxIter)
    (hstop : θ ≤ poisson_cdf lam n ∨ poisson_probability n lam < 1e-8)
    (hmin : ∀ m, m < n → ¬(θ ≤ poisson_cdf lam m ∨ poisson_probability m lam < 1e-8)) :
    size_spares lam θ maxIter =
      ⟨(List.range (n + 1)).map (tableRow lam), n, poisson_cdf lam n⟩ := by
  have h0 : (0 : ℝ) = ∑ i ∈ Finset.range 0, poisson_probability i lam := by simp
  have h := sizeLoop_find lam θ (maxIter + 1) 0 n (by omega) (by omega) hstop
    (fun m _ hm2 => hmin m hm2)
  unfold size_spares
  rw [h0, h]
  simp [List.range_eq_range']

/-- Whatever happens, the emitted table is the list of rows `tableRow lam i`
for a contiguous block of spares counts starting at `x`. -/
theorem sizeLoop_shape (lam θ : ℝ) (fuel : ℕ) :
    ∀ x : ℕ,
      ∃ k, (sizeLoop lam θ fuel x (∑ i ∈ Finset.range x, poisson_probability i lam)).1 =
        (List.range' x k).map (tableRow lam) := by
  induction fuel with
  | zero => intro x; exact ⟨0, by simp [sizeLoop]⟩
  | succ fuel ih =>
    intro x
    have hcum : (∑ i ∈ Finset.range x, poisson_probability i lam) + poisson_probability x lam
        = poisson_cdf lam x := by
      unfold poisson_cdf
      rw [Finset.sum_range_succ]
    simp only [sizeLoop]
    split
    · refine ⟨1, ?_⟩
      rw [hcum]
      simp [List.range'_succ, tableRow]
    · obtain ⟨k, hk⟩ := ih (x + 1)
      have hsum1 : (∑ i ∈ Finset.range (x + 1), poisson_probability i lam) =
          poisson_cdf lam x := rfl
      rw [hsum1] at hk
      refine ⟨k + 1, ?_⟩
      rw [hcum, List.range'_succ]
      simp only [List.map_cons]
      rw [hk]
      simp [tableRow]

/-- The table produced by `size_spares` is always a contiguous block of rows
starting at spares count `0`. -/
theorem size_spares_shape (lam θ : ℝ) (maxIter : ℕ) :
    ∃ k, (size_spares lam θ maxIter).table = (List.range' 0 k).map (tableRow lam) := by
  have h0 : (0 : ℝ) = ∑ i ∈ Finset.range 0, poisson_probability i lam := by simp
  obtain ⟨k, hk⟩ := sizeLoop_shape lam θ (maxIter + 1) 0
  exact ⟨k, by unfold size_spares; rw [h0]; exact hk⟩

/-- The first table row always holds the (rounded) probability
`PMF(0, λ) = e^(-λ)`, which is also the cumulative value of that row. -/
theorem size_spares_head (lam θ : ℝ) (maxIter : ℕ) :
    (size_spares lam θ maxIter).table.head? =
      some ⟨0, round4 (Real.exp (-lam)), round4 (Real.exp (-lam))⟩ := by
  unfold size_spares
  simp only [sizeLoop]
  split
  · simp [poisson_probability_zero]
  · simp [poisson_probability_zero]

/-- C1: for non-negative `A, M, T`, positive `N` and positive `MTBR`, the
computed rate is `(A·N·M·T)/MTBR`, it is non-negative, and it is zero whenever
any of `A, N, M, T` is zero. -/
theorem compute_lambda_spec (A N M T MTBR : ℕ) (hN : 0 < N) (hM : 0 < MTBR) :
    compute_lambda A N M T MTBR = ((A : ℝ) * N * M * T) / MTBR ∧
    0 ≤ compute_lambda A N M T MTBR ∧
    ((A = 0 ∨ N = 0 ∨ M = 0 ∨ T = 0) → compute_lambda A N M T MTBR = 0) := by
  refine ⟨rfl, ?_, ?_⟩
  · apply div_nonneg _ (Nat.cast_nonneg _)
    positivity
  · rintro (rfl | rfl | rfl | rfl) <;> simp [compute_lambda]

/-- Witness for C1 at `A = 0, N = 2, M = 3, T = 4, MTBR = 5`. -/
theorem compute_lambda_spec_witness :
    compute_lambda 0 2 3 4 5 =
      (((0 : ℕ) : ℝ) * ((2 : ℕ) : ℝ) * ((3 : ℕ) : ℝ) * ((4 : ℕ) : ℝ)) / ((5 : ℕ) : ℝ) ∧
    0 ≤ compute_lambda 0 2 3 4 5 ∧
    ((0 = 0 ∨ 2 = 0 ∨ 3 = 0 ∨ 4 = 0) → compute_lambda 0 2 3 4 5 = 0) :=
  compute_lambda_spec 0 2 3 4 5 (by decide) (by decide)

/-- C2: with `MTBR = 0` the evaluation reports the error message and nothing
else: no λ and no (partial) probability table is ever produced, whatever the
other inputs. -/
theorem mtbr_zero_rejected (A N M T : ℕ) (θ : ℝ) (max_iterations : ℕ) :
    run_evaluation A N M T 0 θ max_iterations =
      AppOutcome.error "MTBR cannot be zero." := by
  simp [run_evaluation]

/-! ### Numeric bounds on the exponential -/

theorem poisson_cdf_eq (lam : ℝ) (n : ℕ) :
    poisson_cdf lam n =
      Real.exp (-lam) * ∑ i ∈ Finset.range (n + 1), lam ^ i / (Nat.factorial i : ℝ) := by
  unfold poisson_cdf poisson_probability
  rw [Finset.mul_sum]
  refine Finset.sum_congr rfl fun i _ => ?_
  rw [mul_div_assoc]

theorem exp_nineteen_gt : (10 : ℝ) ^ 8 < Real.exp 19 := by
  have h : Real.exp (19 : ℝ) = Real.exp 1 ^ 19 := by rw [← Real.exp_nat_mul]; norm_num
  rw [h]
  calc (10 : ℝ) ^ 8 < (2.7182818283 : ℝ) ^ 19 := by norm_num
    _ < Real.exp 1 ^ 19 := pow_lt_pow_left₀ Real.exp_one_gt_d9 (by norm_num) (by norm_num)

theorem exp_hundred_gt : (10 : ℝ) ^ 8 < Real.exp 100 := by
  have h : Real.exp (100 : ℝ) = Real.exp 1 ^ 100 := by rw [← Real.exp_nat_mul]; norm_num
  rw [h]
  calc (10 : ℝ) ^ 8 < (2 : ℝ) ^ 100 := by norm_num
    _ < Real.exp 1 ^ 100 :=
      pow_lt_pow_left₀ (lt_trans (by norm_num) Real.exp_one_gt_d9) (by norm_num) (by norm_num)

/-- For every `λ ≥ 0` the loop's stop test holds somewhere at or before
spares count `70`: either `e^(-λ) < 1e-8` already at `0`, or else `λ ≤ 19`,
and then `pmf(70, λ) ≤ 19^70/70! < 1e-8`. -/
theorem stop_exists (lam θ : ℝ) (hlam : 0 ≤ lam) :
    ∃ n, n ≤ 70 ∧ (θ ≤ poisson_cdf lam n ∨ poisson_probability n lam < 1e-8) := by
  by_cases h : poisson_probability 0 lam < 1e-8
  · exact ⟨0, by omega, Or.inr h⟩
  · push_neg at h
    rw [poisson_probability_zero] at h
    have hlam19 : lam ≤ 19 := by
      by_contra hgt
      push_neg at hgt
      have h1 : Real.exp (-lam) < Real.exp (-19) := Real.exp_lt_exp.mpr (by linarith)
      have h2 : Real.exp (-19 : ℝ) < 1e-8 := by
        rw [Real.exp_neg, show (1e-8 : ℝ) = ((10 : ℝ) ^ 8)⁻¹ by norm_num]
        exact inv_strictAnti₀ (by norm_num) exp_nineteen_gt
      linarith
    refine ⟨70, by omega, Or.inr ?_⟩
    have hexp1 : Real.exp (-lam) ≤ 1 := Real.exp_le_one_iff.mpr (by linarith)
    have hpow : lam ^ 70 ≤ (19 : ℝ) ^ 70 := pow_le_pow_left₀ hlam hlam19 70
    have hnum : Real.exp (-lam) * lam ^ 70 ≤ (19 : ℝ) ^ 70 :=
      (mul_le_of_le_one_left (pow_nonneg hlam 70) hexp1).trans hpow
    have hfac : (0 : ℝ) < (Nat.factorial 70 : ℝ) := by positivity
    have hnat : (19 : ℕ) ^ 70 * 10 ^ 8 < Nat.factorial 70 := by decide
    have hlt : (19 : ℝ) ^ 70 / (Nat.factorial 70 : ℝ) < 1e-8 := by
      rw [show (1e-8 : ℝ) = 1 / 10 ^ 8 by norm_num, div_lt_div_iff₀ hfac (by norm_num)]
      calc (19 : ℝ) ^ 70 * 10 ^ 8 = (((19 : ℕ) ^ 70 * 10 ^ 8 : ℕ) : ℝ) := by push_cast; ring
        _ < ((Nat.factorial 70 : ℕ) : ℝ) := by exact_mod_cast hnat
        _ = 1 * (Nat.factorial 70 : ℝ) := by ring
    unfold poisson_probability
    calc Real.exp (-lam) * lam ^ 70 / (Nat.factorial 70 : ℝ)
        ≤ (19 : ℝ) ^ 70 / (Nat.factorial 70 : ℝ) :=
          div_le_div_of_nonneg_right hnum hfac.le
      _ < 1e-8 := hlt

theorem pmf_zero_hundred_small : poisson_probability 0 (100 : ℝ) < 1e-8 := by
  rw [poisson_probability_zero, Real.exp_neg,
    show (1e-8 : ℝ) = ((10 : ℝ) ^ 8)⁻¹ by norm_num]
  exact inv_strictAnti₀ (by norm_num) exp_hundred_gt

/-! ### The remaining claims -/

/-- C3: for every `λ ≥ 0` and threshold in `[0, 1)`, the sizing loop stops at
the first spares count `n` where `cumulative ≥ threshold` or `pmf < 1e-8`
(whichever triggers first); this happens within the `1000`-iteration cap,
`min_spares` is exactly that `n`, and the table holds one row per spares
count `0, …, n`. -/
theorem sizing_stops_at_first_stop (lam θ : ℝ) (hlam : 0 ≤ lam) (hθ0 : 0 ≤ θ)
    (hθ1 : θ < 1) :
    ∃ n, n ≤ 1000 ∧
      (θ ≤ poisson_cdf lam n ∨ poisson_probability n lam < 1e-8) ∧
      (∀ m, m < n → ¬(θ ≤ poisson_cdf lam m ∨ poisson_probability m lam < 1e-8)) ∧
      (size_spares lam θ 1000).min_spares = n ∧
      (size_spares lam θ 1000).table = (List.range (n + 1)).map (tableRow lam) := by
  classical
  obtain ⟨n0, hn0, hs0⟩ := stop_exists lam θ hlam
  have hex : ∃ n, θ ≤ poisson_cdf lam n ∨ poisson_probability n lam < 1e-8 := ⟨n0, hs0⟩
  have hle : Nat.find hex ≤ 1000 := le_trans (Nat.find_min' hex hs0) (by omega)
  have heq := size_spares_eq_of_find lam θ 1000 (Nat.find hex) hle (Nat.find_spec hex)
    (fun m hm => Nat.find_min hex hm)
  exact ⟨Nat.find hex, hle, Nat.find_spec hex, fun m hm => Nat.find_min hex hm,
    by rw [heq], by rw [heq]⟩

/-- Witness for C3 at `λ = 0`, threshold `9/10`. -/
theorem sizing_stops_at_first_stop_witness :
    ∃ n, n ≤ 1000 ∧
      ((9/10 : ℝ) ≤ poisson_cdf 0 n ∨ poisson_probability n 0 < 1e-8) ∧
      (∀ m, m < n → ¬((9/10 : ℝ) ≤ poisson_cdf 0 m ∨ poisson_probability m 0 < 1e-8)) ∧
      (size_spares 0 (9/10) 1000).min_spares = n ∧
      (size_spares 0 (9/10) 1000).table = (List.range (n + 1)).map (tableRow 0) :=
  sizing_stops_at_first_stop 0 (9/10) le_rfl (by norm_num) (by norm_num)

/-- C4: for `λ = 5` and threshold `0.9`, the minimum number of spares is `8`,
the smallest `k` with Poisson `CDF(k; 5) ≥ 0.9`. -/
theorem min_spares_lambda_five : (size_spares 5 (9/10) 1000).min_spares = 8 := by
  have hexp5 : Real.exp (5 : ℝ) = Real.exp 1 ^ 5 := by rw [← Real.exp_nat_mul]; norm_num
  have hLB : (2.7182818283 : ℝ) ^ 5 < Real.exp 5 := by
    rw [hexp5]
    exact pow_lt_pow_left₀ Real.exp_one_gt_d9 (by norm_num) (by norm_num)
  have hUB : Real.exp 5 < (2.7182818286 : ℝ) ^ 5 := by
    rw [hexp5]
    exact pow_lt_pow_left₀ Real.exp_one_lt_d9 (Real.exp_pos 1).le (by norm_num)
  have hEpos : (0 : ℝ) < Real.exp 5 := Real.exp_pos 5
  have hneg : Real.exp (-5 : ℝ) = (Real.exp 5)⁻¹ := Real.exp_neg 5
  have hS7 : (∑ i ∈ Finset.range (7 + 1), ((5 : ℝ) ^ i / (Nat.factorial i : ℝ))) =
      5185920 / 40320 := by
    norm_num [Finset.sum_range_succ, Nat.factorial]
  have hS8 : (∑ i ∈ Finset.range (8 + 1), ((5 : ℝ) ^ i / (Nat.factorial i : ℝ))) =
      5576545 / 40320 := by
    norm_num [Finset.sum_range_succ, Nat.factorial]
  have hcdf7 : poisson_cdf 5 7 < 9/10 := by
    rw [poisson_cdf_eq, hS7, hneg, inv_mul_eq_div, div_lt_iff₀ hEpos]
    have hnum7 : (5185920 / 40320 : ℝ) < 9/10 * (2.7182818283 : ℝ) ^ 5 := by norm_num
    linarith
  have hcdf8 : (9/10 : ℝ) ≤ poisson_cdf 5 8 := by
    rw [poisson_cdf_eq, hS8, hneg, inv_mul_eq_div, le_div_iff₀ hEpos]
    have hnum8 : (9/10 : ℝ) * (2.7182818286 : ℝ) ^ 5 ≤ 5576545 / 40320 := by norm_num
    linarith
  have hexpinv : (149 : ℝ)⁻¹ ≤ Real.exp (-5 : ℝ) := by
    rw [hneg]
    exact inv_anti₀ hEpos (le_of_lt (hUB.trans (by norm_num)))
  have hkey : ∀ c : ℝ, 1 ≤ c → (1e-8 : ℝ) ≤ Real.exp (-5 : ℝ) * c := by
    intro c hc
    have h2 : (0 : ℝ) < Real.exp (-5 : ℝ) := Real.exp_pos _
    nlinarith
  have hpmf : ∀ m : ℕ, m ≤ 7 → (1e-8 : ℝ) ≤ poisson_probability m 5 := by
    intro m hm
    have heq : poisson_probability m 5 =
        Real.exp (-5 : ℝ) * ((5 : ℝ) ^ m / (Nat.factorial m : ℝ)) := by
      unfold poisson_probability
      rw [mul_div_assoc]
    rw [heq]
    apply hkey
    interval_cases m <;> norm_num [Nat.factorial]
  have hmin : ∀ m : ℕ, m < 8 →
      ¬((9/10 : ℝ) ≤ poisson_cdf 5 m ∨ poisson_probability m 5 < 1e-8) := by
    intro m hm
    push_neg
    constructor
    · calc poisson_cdf 5 m ≤ poisson_cdf 5 7 := poisson_cdf_mono (by norm_num) (by omega)
        _ < 9/10 := hcdf7
    · exact hpmf m (by omega)
  have h := size_spares_eq_of_find 5 (9/10) 1000 8 (by omega) (Or.inl hcdf8) hmin
  rw [h]

/-- C5: for `λ = 0` and threshold `0.9`, the table is exactly one row
`(spares = 0, probability = 1, cumulative = 1)`, and `min_spares = 0`. -/
theorem table_lambda_zero :
    (size_spares 0 (9/10) 1000).table = [⟨0, 1, 1⟩] ∧
    (size_spares 0 (9/10) 1000).min_spares = 0 := by
  have hpmf0 : poisson_probability 0 (0 : ℝ) = 1 := by
    rw [poisson_probability_zero]
    simp
  have hcdf0 : poisson_cdf (0 : ℝ) 0 = 1 := by
    unfold poisson_cdf
    rw [Finset.sum_range_one, hpmf0]
  have hstop : (9/10 : ℝ) ≤ poisson_cdf 0 0 ∨ poisson_probability 0 (0 : ℝ) < 1e-8 :=
    Or.inl (by rw [hcdf0]; norm_num)
  have h := size_spares_eq_of_find 0 (9/10) 1000 0 (by omega) hstop
    (fun m hm => absurd hm (by omega))
  rw [h]
  refine ⟨?_, rfl⟩
  rw [show List.range (0 + 1) = [0] from rfl]
  simp [tableRow, hcdf0, hpmf0, round4_one]

/-- Counterexample to C6: at `λ = 100`, threshold `0.9`, `max_iterations = 5`
the table does NOT have 6 rows — `pmf(0, 100) = e^(-100) < 1e-8` stops the
loop at the very first row. -/
theorem lambda_hundred_table_cex : (size_spares 100 (9/10) 5).table.length ≠ 6 := by
  have h := size_spares_eq_of_find 100 (9/10) 5 0 (by omega)
    (Or.inr pmf_zero_hundred_small) (fun m hm => absurd hm (by omega))
  rw [h]
  simp

/-- C6 (amended): at `λ = 100`, threshold `0.9`, `max_iterations = 5`, the
negligibility floor `pmf < 1e-8` fires at the first row, so the table has
exactly one row (spares `0`), `min_spares = 0`, and the threshold is not
reached (`converged` is false). -/
theorem lambda_hundred_maxiter_five :
    (size_spares 100 (9/10) 5).table.length = 1 ∧
    (size_spares 100 (9/10) 5).min_spares = 0 ∧
    ¬ (size_spares 100 (9/10) 5).converged (9/10) := by
  have h := size_spares_eq_of_find 100 (9/10) 5 0 (by omega)
    (Or.inr pmf_zero_hundred_small) (fun m hm => absurd hm (by omega))
  rw [h]
  refine ⟨by simp, rfl, ?_⟩
  unfold SizingResult.converged
  simp only
  push_neg
  have hc : poisson_cdf (100 : ℝ) 0 = poisson_probability 0 100 := by
    unfold poisson_cdf
    rw [Finset.sum_range_one]
  rw [hc]
  calc poisson_probability 0 (100 : ℝ) < 1e-8 := pmf_zero_hundred_small
    _ < 9/10 := by norm_num

/-- Counterexample to C7: at `λ = 1` the probability stored in the first
table row is the rounded value `0.3679`, not `e^(-1)` itself — the code
rounds the values it stores in the table. -/
theorem first_row_probability_ne_exp :
    (size_spares 1 (9/10) 1000).table.head?.map ProbRow.probability ≠
      some (Real.exp (-1)) ∧
    (size_spares 1 (9/10) 1000).table.head?.map ProbRow.probability =
      some ((3679 : ℝ) / 10 ^ 4) := by
  have hlb : (2.7182818286 : ℝ)⁻¹ < Real.exp (-1 : ℝ) := by
    rw [Real.exp_neg]
    exact inv_strictAnti₀ (Real.exp_pos 1) Real.exp_one_lt_d9
  have hub : Real.exp (-1 : ℝ) < (2.7182818283 : ℝ)⁻¹ := by
    rw [Real.exp_neg]
    exact inv_strictAnti₀ (by norm_num) Real.exp_one_gt_d9
  have hl1 : (3678.5 : ℝ) < (2.7182818286 : ℝ)⁻¹ * 10 ^ 4 := by norm_num
  have hu1 : (2.7182818283 : ℝ)⁻¹ * 10 ^ 4 < (3679.5 : ℝ) := by norm_num
  have hr' := round4_eq_of_mem (Real.exp (-1 : ℝ)) 3679
    (by push_cast; nlinarith) (by push_cast; nlinarith)
  have hr : round4 (Real.exp (-1 : ℝ)) = (3679 : ℝ) / 10 ^ 4 := by
    rw [hr']
    norm_num
  have hhead := size_spares_head 1 (9/10) 1000
  constructor
  · rw [hhead]
    simp only [Option.map_some', ne_eq, Option.some.injEq]
    intro hcontra
    rw [hr] at hcontra
    have : Real.exp (-1 : ℝ) < (3679 : ℝ) / 10 ^ 4 := by
      calc Real.exp (-1 : ℝ) < (2.7182818283 : ℝ)⁻¹ := hub
        _ < (3679 : ℝ) / 10 ^ 4 := by norm_num
    linarith [this, hcontra.le]
  · rw [hhead]
    simp [hr]

/-- C7 (amended): the probability stored in the first table row is the
4-digit rounding of `PMF(0, λ) = e^(-λ)`; the full-precision value feeds the
cumulative accumulation, the rounded one is what the table stores. -/
theorem first_row_probability_rounded (lam θ : ℝ) (max_iterations : ℕ) :
    (size_spares lam θ max_iterations).table.head?.map ProbRow.probability =
      some (round4 (poisson_probability 0 lam)) ∧
    poisson_probability 0 lam = Real.exp (-lam) := by
  rw [size_spares_head]
  exact ⟨by simp [poisson_probability_zero], poisson_probability_zero lam⟩

/-- C8: for `λ ≥ 0` the stored cumulative probabilities are non-decreasing
along the table, and every stored probability and cumulative probability lies
in `[0, 1]`. -/
theorem table_cumulative_monotone_bounded (lam θ : ℝ) (max_iterations : ℕ)
    (hlam : 0 ≤ lam) :
    List.Pairwise (· ≤ ·)
      ((size_spares lam θ max_iterations).table.map ProbRow.cumulative_probability) ∧
    ∀ r ∈ (size_spares lam θ max_iterations).table,
      (0 ≤ r.probability ∧ r.probability ≤ 1) ∧
      (0 ≤ r.cumulative_probability ∧ r.cumulative_probability ≤ 1) := by
  obtain ⟨k, hk⟩ := size_spares_shape lam θ max_iterations
  rw [hk]
  constructor
  · rw [List.map_map]
    apply List.pairwise_map.mpr
    apply List.Pairwise.imp ?_ (List.pairwise_lt_range' 0 k)
    intro a b hab
    exact round4_mono (poisson_cdf_mono hlam hab.le)
  · intro r hr
    rw [List.mem_map] at hr
    obtain ⟨i, _, rfl⟩ := hr
    exact ⟨round4_mem_unit (poisson_probability_nonneg hlam i)
        (poisson_probability_le_one hlam i),
      round4_mem_unit (poisson_cdf_nonneg hlam i) (poisson_cdf_le_one hlam i)⟩

/-- Witness for C8 at `λ = 0`, threshold `9/10`, `max_iterations = 1000`. -/
theorem table_cumulative_monotone_bounded_witness :
    List.Pairwise (· ≤ ·)
      ((size_spares 0 (9/10) 1000).table.map ProbRow.cumulative_probability) ∧
    ∀ r ∈ (size_spares 0 (9/10) 1000).table,
      (0 ≤ r.probability ∧ r.probability ≤ 1) ∧
      (0 ≤ r.cumulative_probability ∧ r.cumulative_probability ≤ 1) :=
  table_cumulative_monotone_bounded 0 (9/10) 1000 le_rfl

/-- C9: the sizing loop always terminates within the
`max_iterations` bound: the table never has more than
`max_iterations + 1` rows, whatever `λ` and the threshold are. -/
theorem sizing_loop_bounded (lam θ : ℝ) (max_iterations : ℕ) :
    (size_spares lam θ max_iterations).table.length ≤ max_iterations + 1 := by
  have h := sizeLoop_length lam θ (max_iterations + 1) 0 0
  simpa [size_spares] using h

/-- C10: for `λ > ln(10^8)` the negligibility floor fires at the very first
row (`pmf(0, λ) = e^(-λ) < 1e-8`), so the table has exactly the one row for
spares `0` and `min_spares = 0`, for every threshold in `[0, 1)`. -/
theorem large_lambda_one_row (lam θ : ℝ) (hlam : Real.log (10 ^ 8) < lam)
    (hθ0 : 0 ≤ θ) (hθ1 : θ < 1) :
    (size_spares lam θ 1000).table = [tableRow lam 0] ∧
    (size_spares lam θ 1000).min_spares = 0 := by
  have hexp : (10 : ℝ) ^ 8 < Real.exp lam := (Real.log_lt_iff_lt_exp (by norm_num)).mp hlam
  have hfloor : poisson_probability 0 lam < 1e-8 := by
    rw [poisson_probability_zero, Real.exp_neg,
      show (1e-8 : ℝ) = ((10 : ℝ) ^ 8)⁻¹ by norm_num]
    exact inv_strictAnti₀ (by norm_num) hexp
  have h := size_spares_eq_of_find lam θ 1000 0 (by omega) (Or.inr hfloor)
    (fun m hm => absurd hm (by omega))
  rw [h]
  exact ⟨by rw [show List.range (0 + 1) = [0] from rfl]; rfl, rfl⟩

/-- Witness for C10 at `λ = 19`, threshold `9/10`. -/
theorem large_lambda_one_row_witness :
    (size_spares 19 (9/10) 1000).table = [tableRow 19 0] ∧
    (size_spares 19 (9/10) 1000).min_spares = 0 :=
  large_lambda_one_row 19 (9/10)
    ((Real.log_lt_iff_lt_exp (by norm_num)).mpr exp_nineteen_gt) (by norm_num) (by norm_num)

end CriticalSpares
